import Mathlib

/-!
Verification of the analysis-orchestration core of the chess-playalong web
application (`src/app.js`): the Stockfish progress-line aggregator, the
debounced analysis scheduler, the explanation cache/pipeline, and the ranked
display.  All JavaScript string processing is embedded over explicit character
lists (`List Char`) so that every definition reduces inside the kernel.

External collaborators (chess.js, the board widget, the network) are modelled
as parameters: the rules engine is a `Rules` record, the Claude reply and the
cache contents are explicit inputs.
-/

namespace ChessPlayalong

/-- Characters of a JavaScript string. -/
abbrev Str := List Char

/-- JS `s.split(sep)` for a one-character separator: separators split the
string and empty fragments are kept, so the result is always non-empty. -/
def splitCh (sep : Char) : Str → List Str
  | [] => [[]]
  | c :: cs =>
    if c = sep then [] :: splitCh sep cs
    else
      match splitCh sep cs with
      | [] => [[c]]
      | f :: rest => (c :: f) :: rest

/-- JS `s.split(' ')` (app.js uses it on FEN strings and pv lists). -/
def splitSp : Str → List Str := splitCh ' '

/-- JS `text.split('\n')` (app.js line 797). -/
def splitNl : Str → List Str := splitCh '\n'

/-- `getCacheKey` (app.js lines 29-34): the board part of the FEN (everything
before the first space), an underscore, and the move notation. -/
def getCacheKey (fen move : Str) : Str :=
  ((splitSp fen).headD []) ++ '_' :: move

/-- Decimal digit test, as in the regex class `\d`. -/
def isDigit (c : Char) : Bool := decide ('0' ≤ c) && decide (c ≤ '9')

/-- Numeric value of the digit list (what `parseInt` returns on `\d+`). -/
def digitsToNat (ds : Str) : Nat := ds.foldl (fun a c => 10 * a + (c.toNat - '0'.toNat)) 0

/-- Greedy `\d+` at the current position: one or more digits, their value, and
the rest of the string; `none` when the position does not start with a digit. -/
def readNat (s : Str) : Option (Nat × Str) :=
  match s.takeWhile isDigit with
  | [] => none
  | ds => some (digitsToNat ds, s.dropWhile isDigit)

/-- Greedy `-?\d+` at the current position (value only). -/
def readInt (s : Str) : Option Int :=
  match s with
  | '-' :: rest => (readNat rest).map (fun p => -(p.1 : Int))
  | _ => (readNat s).map (fun p => (p.1 : Int))

/-- If `pat` is an initial segment of `s`, the remainder of `s` after it. -/
def matchAt : Str → Str → Option Str
  | [], s => some s
  | _ :: _, [] => none
  | p :: ps, c :: cs => if p = c then matchAt ps cs else none

/-- First match of the regex `pat(\d+)` anywhere in the line, returning the
captured number — models `line.match(/depth (\d+)/)` and `/multipv (\d+)/`
(app.js lines 318-319): the scan advances until the literal pattern is
followed by at least one digit. -/
def scanNumTok (pat : Str) : Str → Option Nat
  | [] => none
  | c :: cs =>
    match matchAt pat (c :: cs) with
    | some rest =>
      match readNat rest with
      | some (n, _) => some n
      | none => scanNumTok pat cs
    | none => scanNumTok pat cs

/-- The `mate (-?\d+)` alternative of the score regex, tried at a position just
after the literal `score `. -/
def mateHere (rest : Str) : Option (Bool × Int) :=
  match matchAt "mate ".data rest with
  | some r2 => (readInt r2).map (fun n => (true, n))
  | none => none

/-- The `(cp|mate) (-?\d+)` tail of the score regex at a fixed position:
the `cp` branch is preferred, the `mate` branch is the backtracking
alternative.  The boolean is `true` for a mate score. -/
def scoreHere (rest : Str) : Option (Bool × Int) :=
  match matchAt "cp ".data rest with
  | some r2 =>
    match readInt r2 with
    | some n => some (false, n)
    | none => mateHere rest
  | none => mateHere rest

/-- First match of `score (cp|mate) (-?\d+)` in the line
(app.js line 320). -/
def scanScore : Str → Option (Bool × Int)
  | [] => none
  | c :: cs =>
    match matchAt "score ".data (c :: cs) with
    | some rest =>
      match scoreHere rest with
      | some kv => some kv
      | none => scanScore cs
    | none => scanScore cs

/-- First match of `/ pv (.+)/` in the line (app.js line 321): everything
after the first occurrence of `" pv "` that is followed by at least one
character. -/
def scanPv : Str → Option Str
  | [] => none
  | c :: cs =>
    match matchAt " pv ".data (c :: cs) with
    | some [] => scanPv cs
    | some rest => some rest
    | none => scanPv cs

/-- The fields parseAnalysisLine extracts from a raw engine line
(app.js lines 325-329). -/
structure RawLine where
  depth : Nat
  multipv : Nat
  isMate : Bool
  score : Int
  pv : List Str
deriving DecidableEq

/-- The four regex matches of `parseAnalysisLine` (app.js lines 318-329);
the line is unusable when any of them fails (line 323). -/
def parseInfoTokens (line : Str) : Option RawLine :=
  match scanNumTok "depth ".data line, scanNumTok "multipv ".data line,
        scanScore line, scanPv line with
  | some d, some m, some (k, v), some pvs =>
    some { depth := d, multipv := m, isMate := k, score := v, pv := splitSp pvs }
  | _, _, _, _ => none

/-- A move intent handed to chess.js: `{from, to, promotion}`
(fields renamed `src`/`dst` because `from` is a Lean keyword). -/
structure MoveIntent where
  src : Str
  dst : Str
  promo : Option Char
deriving DecidableEq

/-- What chess.js `.move` returns on a legal move: the SAN name of the move
and the position after it (`game.fen()`). -/
structure MoveRes where
  san : Str
  newFen : Str
deriving DecidableEq

/-- The external rules engine (chess.js, out of scope per the spec):
`move fen i` models `new Chess(fen)` followed by `.move({from, to,
promotion})`, `none` meaning the intent is not a legal move; `turnOf` models
`game.turn()` on that FEN (`'w'` or `'b'`). -/
structure Rules where
  move : Str → MoveIntent → Option MoveRes
  turnOf : Str → Char

/-- The evaluation stored in an analysis line (app.js lines 346-354).  The
source stores the rendered string; this type records its exact content — a
mate value `M<n>` or a flipped centipawn value rendered as a fixed
two-decimal number (`renderEval` below produces the very string). -/
inductive EvalDisp where
  | mate (n : Int)
  | cp (v : Int)
deriving DecidableEq

/-- One entry of `analysisLines` (app.js lines 356-362). -/
structure LineInfo where
  move : Str
  uci : Str
  evalD : EvalDisp
  depth : Nat
  pv : List Str
deriving DecidableEq

/-- The aggregator's mutable state: `analysisLines` and `currentDepth`
(app.js lines 281-282).  `analysisLines` is a JS object keyed by the integer
`multipv`; JS enumerates integer-like keys in ascending order, so it is kept
as an association list with strictly ascending keys. -/
structure AggState where
  analysisLines : List (Nat × LineInfo)
  currentDepth : Nat
deriving DecidableEq

/-- JS `analysisLines[multipv] = v`: replace the entry when the key exists,
otherwise insert it at its ascending-key position. -/
def setLine (k : Nat) (v : LineInfo) : List (Nat × LineInfo) → List (Nat × LineInfo)
  | [] => [(k, v)]
  | (k2, v2) :: rest =>
    if k = k2 then (k, v) :: rest
    else if k < k2 then (k, v) :: (k2, v2) :: rest
    else (k2, v2) :: setLine k v rest

/-- JS `analysisLines[k]` lookup. -/
def getLine (k : Nat) : List (Nat × LineInfo) → Option LineInfo
  | [] => none
  | (k2, v2) :: rest => if k = k2 then some v2 else getLine k rest

/-- UCI string to a chess.js move intent (app.js lines 338-340 and 469-472):
from = first two characters, to = next two, promotion = fifth character when
the string is longer than four characters. -/
def uciIntent (uci : Str) : MoveIntent :=
  { src := uci.take 2, dst := (uci.drop 2).take 2, promo := uci[4]? }

/-- The entry built for an accepted line (app.js lines 346-362): SAN from the
rules engine, the raw UCI move, the evaluation — a mate value kept as-is, a
centipawn value flipped to the side to move — the line's depth and its pv. -/
def storedLine (R : Rules) (fen : Str) (r : RawLine) (mv : MoveRes) : LineInfo :=
  { move := mv.san, uci := r.pv.headD [],
    evalD :=
      (if r.isMate then .mate r.score
       else .cp (if R.turnOf fen = 'w' then r.score else -r.score)),
    depth := r.depth, pv := r.pv }

/-- Body of `parseAnalysisLine` after the regexes succeeded
(app.js lines 331-368): when `depth >= currentDepth`, `currentDepth` is set
to `depth` first; then the first pv move is replayed on a scratch copy of the
current position, the line being dropped when it is illegal; on success the
evaluation is flipped to the side to move (centipawn scores only) and the
entry for `multipv` is overwritten. -/
def applyParsedLine (R : Rules) (fen : Str) (st : AggState) (r : RawLine) : AggState :=
  if st.currentDepth ≤ r.depth then
    -- the source assigns `currentDepth = depth` (line 333) before the
    -- legality check; both branches below carry that assignment
    match R.move fen (uciIntent (r.pv.headD [])) with
    | none => { st with currentDepth := r.depth }
    | some mv =>
      { analysisLines := setLine r.multipv (storedLine R fen r mv) st.analysisLines,
        currentDepth := r.depth }
  else st

/-- `parseAnalysisLine` (app.js lines 317-369) as a state transformer: a line
some regex rejects leaves the state untouched. -/
def parseAnalysisLine (R : Rules) (fen : Str) (st : AggState) (line : Str) : AggState :=
  match parseInfoTokens line with
  | none => st
  | some r => applyParsedLine R fen st r

/-- The value of `currentDepth` after `applyParsedLine`: it is raised to the
line's depth whenever `depth >= currentDepth` (app.js lines 332-333), before
the legality check on the first pv move. -/
lemma currentDepth_applyParsedLine (R : Rules) (fen : Str) (st : AggState) (r : RawLine) :
    (applyParsedLine R fen st r).currentDepth =
      if st.currentDepth ≤ r.depth then r.depth else st.currentDepth := by
  unfold applyParsedLine
  by_cases h : st.currentDepth ≤ r.depth
  · rw [if_pos h, if_pos h]
    cases R.move fen (uciIntent (r.pv.headD [])) <;> simp
  · rw [if_neg h, if_neg h]

/-- A line rejected by the depth test leaves the whole state unchanged. -/
lemma applyParsedLine_of_depth_lt (R : Rules) (fen : Str) (st : AggState) (r : RawLine)
    (h : ¬ st.currentDepth ≤ r.depth) : applyParsedLine R fen st r = st := by
  unfold applyParsedLine
  rw [if_neg h]

/-- A line whose first pv move is illegal in the current position leaves
`analysisLines` unchanged (the `if (!move) return` of app.js line 343). -/
lemma analysisLines_applyParsedLine_illegal (R : Rules) (fen : Str) (st : AggState)
    (r : RawLine) (h : R.move fen (uciIntent (r.pv.headD [])) = none) :
    (applyParsedLine R fen st r).analysisLines = st.analysisLines := by
  unfold applyParsedLine
  by_cases hd : st.currentDepth ≤ r.depth
  · rw [if_pos hd, h]
  · rw [if_neg hd]

/-- On an accepted line, the entry stored for its rank. -/
lemma analysisLines_applyParsedLine_legal (R : Rules) (fen : Str) (st : AggState)
    (r : RawLine) (mv : MoveRes) (hd : st.currentDepth ≤ r.depth)
    (h : R.move fen (uciIntent (r.pv.headD [])) = some mv) :
    (applyParsedLine R fen st r).analysisLines =
      setLine r.multipv (storedLine R fen r mv) st.analysisLines := by
  unfold applyParsedLine
  rw [if_pos hd, h]

/-- Looking up the rank just written returns the written entry. -/
lemma getLine_setLine (k : Nat) (v : LineInfo) (m : List (Nat × LineInfo)) :
    getLine k (setLine k v m) = some v := by
  induction m with
  | nil => simp [setLine, getLine]
  | cons p t ih =>
    unfold setLine
    by_cases h1 : k = p.1
    · rw [if_pos h1]
      simp [getLine]
    · rw [if_neg h1]
      by_cases h2 : k < p.1
      · rw [if_pos h2]
        simp [getLine]
      · rw [if_neg h2]
        simpa [getLine, h1] using ih

/-- One processed line never lowers `currentDepth`. -/
lemma currentDepth_le_parseAnalysisLine (R : Rules) (fen : Str) (st : AggState) (line : Str) :
    st.currentDepth ≤ (parseAnalysisLine R fen st line).currentDepth := by
  unfold parseAnalysisLine
  cases parseInfoTokens line with
  | none => exact le_refl _
  | some r =>
    rw [currentDepth_applyParsedLine]
    by_cases h : st.currentDepth ≤ r.depth
    · rw [if_pos h]; exact h
    · rw [if_neg h]

/-- C3: a parsed progress line updates the entry for its rank only when its
depth is at least `currentDepth`, in which case `currentDepth` becomes that
depth; consequently the depth shown with the published ranked list (`Depth
${currentDepth}`) never decreases over any sequence of progress lines for the
same position. -/
theorem c3_depth_monotone :
    (∀ (R : Rules) (fen : Str) (st : AggState) (lines : List Str),
      st.currentDepth ≤ (lines.foldl (parseAnalysisLine R fen) st).currentDepth) ∧
    (∀ (R : Rules) (fen : Str) (st : AggState) (r : RawLine),
      (applyParsedLine R fen st r).analysisLines ≠ st.analysisLines →
        st.currentDepth ≤ r.depth ∧ (applyParsedLine R fen st r).currentDepth = r.depth) := by
  constructor
  · intro R fen st lines
    induction lines generalizing st with
    | nil => exact le_refl _
    | cons l ls ih =>
      exact le_trans (currentDepth_le_parseAnalysisLine R fen st l) (ih _)
  · intro R fen st r hne
    by_cases h : st.currentDepth ≤ r.depth
    · refine ⟨h, ?_⟩
      rw [currentDepth_applyParsedLine, if_pos h]
    · exact absurd (congrArg AggState.analysisLines (applyParsedLine_of_depth_lt R fen st r h)) hne

/-- Concrete rules engine used by witnesses: every intent is legal and named
`e4` (standing in for a position where the probed move happens to be legal). -/
def wRules : Rules :=
  { move := fun _ _ => some { san := "e4".data, newFen := "w2".data }, turnOf := fun _ => 'w' }

/-- Concrete parsed line used by witnesses. -/
def wLine : RawLine :=
  { depth := 12, multipv := 1, isMate := false, score := 20, pv := ["e2e4".data] }

theorem c3_depth_monotone_witness :
    ((⟨[], 0⟩ : AggState).currentDepth ≤
      (["info depth 12 multipv 1 score cp 20 pv e2e4".data].foldl
        (parseAnalysisLine wRules "f0".data) ⟨[], 0⟩).currentDepth) ∧
    ((applyParsedLine wRules "f0".data ⟨[], 0⟩ wLine).analysisLines ≠
        (⟨[], 0⟩ : AggState).analysisLines →
      (⟨[], 0⟩ : AggState).currentDepth ≤ wLine.depth ∧
        (applyParsedLine wRules "f0".data ⟨[], 0⟩ wLine).currentDepth = wLine.depth) :=
  ⟨c3_depth_monotone.1 wRules "f0".data ⟨[], 0⟩ _,
   c3_depth_monotone.2 wRules "f0".data ⟨[], 0⟩ wLine⟩

/-- Concrete rules engine under which no intent is legal. -/
def nRules : Rules := { move := fun _ _ => none, turnOf := fun _ => 'w' }

/-- C2 counterexample: a progress line whose first pv move is illegal in the
current position is *not* discarded with zero effect — `currentDepth` has
already been raised (from 0 to 5) when the legality check fails, so the
aggregator state after the line differs from the state before it. -/
theorem c2_counterexample :
    parseAnalysisLine nRules "f0".data ⟨[], 0⟩
        "info depth 5 multipv 1 score cp 10 pv e9e9".data ≠ ⟨[], 0⟩ := by
  decide

/-- C2 as amended: a line with an unparseable required field has zero effect;
a parseable line whose first pv move is illegal leaves `linesByRank`
unchanged, but still raises `currentDepth` to the line's depth whenever that
depth is at least the current one. -/
theorem c2_amended_reject_discard :
    (∀ (R : Rules) (fen : Str) (st : AggState) (line : Str),
      parseInfoTokens line = none → parseAnalysisLine R fen st line = st) ∧
    (∀ (R : Rules) (fen : Str) (st : AggState) (r : RawLine),
      R.move fen (uciIntent (r.pv.headD [])) = none →
        (applyParsedLine R fen st r).analysisLines = st.analysisLines ∧
        (applyParsedLine R fen st r).currentDepth =
          (if st.currentDepth ≤ r.depth then r.depth else st.currentDepth)) := by
  constructor
  · intro R fen st line h
    unfold parseAnalysisLine
    rw [h]
  · intro R fen st r h
    exact ⟨analysisLines_applyParsedLine_illegal R fen st r h,
      currentDepth_applyParsedLine R fen st r⟩

theorem c2_amended_reject_discard_witness :
    (parseAnalysisLine nRules "f0".data ⟨[], 3⟩ "bestmove e2e4 ponder e7e5".data = ⟨[], 3⟩) ∧
    ((applyParsedLine nRules "f0".data ⟨[], 3⟩ wLine).analysisLines =
        (⟨[], 3⟩ : AggState).analysisLines ∧
      (applyParsedLine nRules "f0".data ⟨[], 3⟩ wLine).currentDepth =
        (if (⟨[], 3⟩ : AggState).currentDepth ≤ wLine.depth then wLine.depth
         else (⟨[], 3⟩ : AggState).currentDepth)) :=
  ⟨c2_amended_reject_discard.1 nRules "f0".data ⟨[], 3⟩ _ (by decide),
   c2_amended_reject_discard.2 nRules "f0".data ⟨[], 3⟩ wLine rfl⟩

/-- C5: the cache key is the same for any two FENs with the same
board-layout field (the portion before the first space), for any move. -/
theorem c5_cache_key_board_only (fen1 fen2 move : Str)
    (h : (splitSp fen1).headD [] = (splitSp fen2).headD []) :
    getCacheKey fen1 move = getCacheKey fen2 move := by
  simp only [getCacheKey, h]

theorem c5_cache_key_witness :
    (splitSp "8/8/8/8/8/8/8/8 w - - 0 1".data).headD [] =
      (splitSp "8/8/8/8/8/8/8/8 b KQkq e3 99 12".data).headD [] ∧
    getCacheKey "8/8/8/8/8/8/8/8 w - - 0 1".data "e4".data =
      getCacheKey "8/8/8/8/8/8/8/8 b KQkq e3 99 12".data "e4".data :=
  ⟨by decide, c5_cache_key_board_only _ _ _ (by decide)⟩

/-- Decimal digit character. -/
def digitChar (n : Nat) : Char := Char.ofNat ('0'.toNat + n)

/-- Decimal digits of a natural number, most significant first (fuel-driven so
that it reduces in the kernel; the fuel `n + 1` always suffices). -/
def natDigitsAux : Nat → Nat → Str → Str
  | 0, _, acc => acc
  | fuel + 1, n, acc =>
    if n < 10 then digitChar n :: acc
    else natDigitsAux fuel (n / 10) (digitChar (n % 10) :: acc)

/-- JS `String(n)` for a natural number. -/
def natStr (n : Nat) : Str := natDigitsAux (n + 1) n []

/-- JS `${n}` for an integer (template-literal rendering of the mate value,
app.js line 348). -/
def intStr (i : Int) : Str := if i < 0 then '-' :: natStr i.natAbs else natStr i.natAbs

/-- Two-digit zero-padded rendering of `n < 100` (the fraction part that
`toFixed(2)` produces). -/
def pad2 (n : Nat) : Str := if n < 10 then '0' :: natStr n else natStr n

/-- JS `(v / 100).toFixed(2)` for an integer number of centipawns `v`: the
quotient has at most two decimals, so `toFixed(2)` renders it exactly — sign,
integer part, a dot and two fraction digits. -/
def fixed2 (v : Int) : Str :=
  (if v < 0 then ['-'] else []) ++ natStr (v.natAbs / 100) ++ '.' :: pad2 (v.natAbs % 100)

/-- The display string stored in `analysisLines[..].eval` (app.js lines
346-354): `M<n>` for mate values, otherwise the flipped centipawn value over
100 with two decimals and a `+` prefix when positive. -/
def renderEval : EvalDisp → Str
  | .mate n => 'M' :: intStr n
  | .cp v => (if 0 < v then ['+'] else []) ++ fixed2 v

/-- `parseEval` (app.js lines 484-490) on the stored display string: mate
strings `M<n>` give `10000 - n` (or `-10000 - n` when `n <= 0`), centipawn
strings parse back to the exact value `v / 100` they were rendered from.
The source computes these as floating-point numbers; the sort comparator is
their only consumer, so the model scales every value by 100 — exact and
strictly order-preserving — to keep the function in `Int`. -/
def parseEval : EvalDisp → Int
  | .mate n => if 0 < n then (10000 - n) * 100 else (-10000 - n) * 100
  | .cp v => v

/-- The comparator of `updateAnalysisDisplay` (app.js lines 413-418):
`(a, b) => parseEval(b.eval) - parseEval(a.eval)` sorts ascending in the
comparator, i.e. descending in `parseEval`; `evalGe a b` says `a` may stay
before `b`. -/
def evalGe (a b : LineInfo) : Prop := parseEval b.evalD ≤ parseEval a.evalD

instance : DecidableRel evalGe := fun a b =>
  inferInstanceAs (Decidable (parseEval b.evalD ≤ parseEval a.evalD))

instance : IsTotal LineInfo evalGe := ⟨fun a b => le_total (parseEval b.evalD) (parseEval a.evalD)⟩

instance : IsTrans LineInfo evalGe := ⟨fun _ _ _ h h2 => le_trans h2 h⟩

/-- JS `Array.prototype.sort` is a stable sort, and the comparator above is a
total preorder, which determines the sorted output uniquely; insertion sort
is one such stable sort. -/
def sortByEval (l : List LineInfo) : List LineInfo := List.insertionSort evalGe l

/-- The ranked candidate list `updateAnalysisDisplay` publishes:
`Object.values(analysisLines)` — ascending integer keys — sorted best first
(app.js line 413). -/
def rankedMoves (st : AggState) : List LineInfo :=
  sortByEval (st.analysisLines.map Prod.snd)

/-- Strictly ascending keys, the JS enumeration order invariant of
`analysisLines`. -/
abbrev KeysAsc (m : List (Nat × LineInfo)) : Prop :=
  m.Pairwise (fun p q => p.1 < q.1)

/-- Members of an updated association list: the written entry or an original
one. -/
lemma mem_setLine_sub {q : Nat × LineInfo} {k : Nat} {v : LineInfo}
    {m : List (Nat × LineInfo)} (h : q ∈ setLine k v m) : q = (k, v) ∨ q ∈ m := by
  induction m with
  | nil => simpa [setLine] using h
  | cons p t ih =>
    unfold setLine at h
    by_cases h1 : k = p.1
    · rw [if_pos h1] at h
      rcases List.mem_cons.1 h with rfl | ht
      · exact Or.inl rfl
      · exact Or.inr (List.mem_cons.2 (Or.inr ht))
    · rw [if_neg h1] at h
      by_cases h2 : k < p.1
      · rw [if_pos h2] at h
        rcases List.mem_cons.1 h with rfl | ht
        · exact Or.inl rfl
        · exact Or.inr ht
      · rw [if_neg h2] at h
        rcases List.mem_cons.1 h with rfl | ht
        · exact Or.inr (List.mem_cons.2 (Or.inl rfl))
        · rcases ih ht with h3 | h3
          · exact Or.inl h3
          · exact Or.inr (List.mem_cons.2 (Or.inr h3))

/-- Two entries of a strictly-ascending association list, in key order, form
a sublist. -/
lemma pair_sublist_of_keysAsc {m : List (Nat × LineInfo)} {i j : Nat} {a b : LineInfo}
    (hm : KeysAsc m) (ha : (i, a) ∈ m) (hb : (j, b) ∈ m) (hij : i < j) :
    List.Sublist [(i, a), (j, b)] m := by
  induction m with
  | nil => cases ha
  | cons p t ih =>
    rcases List.mem_cons.1 ha with rfl | hat
    · rcases List.mem_cons.1 hb with h | hbt
      · exact absurd (congrArg Prod.fst h.symm) (by simpa using Nat.ne_of_lt hij)
      · exact List.Sublist.cons₂ _ (List.singleton_sublist.2 hbt)
    · rcases List.mem_cons.1 hb with rfl | hbt
      · have := (List.pairwise_cons.1 hm).1 _ hat
        exact absurd hij (by omega)
      · exact List.Sublist.cons _ (ih (List.pairwise_cons.1 hm).2 hat hbt)

/-- C8 counterexample: the claim says a mate-for-side-to-move score outranks
*every* centipawn score, but `parseEval` maps `M1` to 9999 (here scaled:
999900) while a parseable centipawn score of 1000000 maps to 10000 (scaled:
1000000), so the centipawn line is published *above* the mate line. -/
theorem c8_counterexample :
    rankedMoves
        ⟨[(1, { move := "Qh7".data, uci := "h5h7".data, evalD := .mate 1, depth := 12, pv := [] }),
          (2, { move := "e4".data, uci := "e2e4".data, evalD := .cp 1000000, depth := 12, pv := [] })], 12⟩ =
      [{ move := "e4".data, uci := "e2e4".data, evalD := .cp 1000000, depth := 12, pv := [] },
       { move := "Qh7".data, uci := "h5h7".data, evalD := .mate 1, depth := 12, pv := [] }] := by
  decide

/-- C8 as amended: the published list is ordered descending by the
side-to-move-relative `parseEval` value with ties kept in ascending rank
order (the association list of ranks stays strictly ascending under updates,
and the sort is stable); a mate-for score `M n` (`n > 0`) outranks every
centipawn score *below `100 * (10000 - n)` centipawns* (not every centipawn
score), a mate-against score `M n` (`n < 0`) ranks below every centipawn
score *above `100 * (-10000 - n)` centipawns*, and shorter mates outrank
longer ones. -/
theorem c8_amended_ranked_order :
    (∀ st : AggState, (rankedMoves st).Sorted evalGe) ∧
    (∀ (d : Nat) (m : List (Nat × LineInfo)) (i j : Nat) (a b : LineInfo),
      KeysAsc m → (i, a) ∈ m → (j, b) ∈ m → i < j →
      parseEval a.evalD = parseEval b.evalD →
      List.Sublist [a, b] (rankedMoves ⟨m, d⟩)) ∧
    (∀ (m : List (Nat × LineInfo)) (k : Nat) (v : LineInfo),
      KeysAsc m → KeysAsc (setLine k v m)) ∧
    (∀ n v : Int, 0 < n → v < (10000 - n) * 100 →
      parseEval (.cp v) < parseEval (.mate n)) ∧
    (∀ n v : Int, n < 0 → (-10000 - n) * 100 < v →
      parseEval (.mate n) < parseEval (.cp v)) ∧
    (∀ m n : Int, 0 < m → m < n → parseEval (.mate n) < parseEval (.mate m)) := by
  refine ⟨?_, ?_, ?_, ?_, ?_, ?_⟩
  · intro st
    exact List.sorted_insertionSort evalGe _
  · intro d m i j a b hm ha hb hij hev
    have hp : List.Sublist [(i, a), (j, b)] m := pair_sublist_of_keysAsc hm ha hb hij
    have hv : List.Sublist [a, b] (m.map Prod.snd) := by
      simpa using hp.map Prod.snd
    exact List.pair_sublist_insertionSort (le_of_eq hev.symm) hv
  · intro m k v hm
    induction m with
    | nil => simp [setLine]
    | cons p t ih =>
      unfold setLine
      by_cases h1 : k = p.1
      · subst h1
        rw [if_pos rfl]
        refine List.pairwise_cons.2 ⟨?_, (List.pairwise_cons.1 hm).2⟩
        intro q hq
        exact (List.pairwise_cons.1 hm).1 q hq
      · rw [if_neg h1]
        by_cases h2 : k < p.1
        · rw [if_pos h2]
          refine List.pairwise_cons.2 ⟨?_, hm⟩
          intro q hq
          rcases List.mem_cons.1 hq with rfl | hqt
          · exact h2
          · exact lt_trans h2 ((List.pairwise_cons.1 hm).1 q hqt)
        · rw [if_neg h2]
          refine List.pairwise_cons.2 ⟨?_, ih (List.pairwise_cons.1 hm).2⟩
          intro q hq
          have hk : p.1 < k := by omega
          have hmem := mem_setLine_sub hq
          rcases hmem with rfl | hqt
          · exact hk
          · exact (List.pairwise_cons.1 hm).1 q hqt
  · intro n v hn hv
    simp only [parseEval, if_pos hn]
    exact hv
  · intro n v hn hv
    have hn2 : ¬ 0 < n := by omega
    simp only [parseEval, if_neg hn2]
    exact hv
  · intro m n hm hmn
    have hn : 0 < n := lt_trans hm hmn
    simp only [parseEval, if_pos hm, if_pos hn]
    omega

theorem c8_amended_ranked_order_witness :
    parseEval (.cp 100) < parseEval (.mate 3) ∧
    parseEval (.mate (-2)) < parseEval (.cp (-100)) ∧
    parseEval (.mate 3) < parseEval (.mate 2) :=
  ⟨c8_amended_ranked_order.2.2.2.1 3 100 (by decide) (by decide),
   c8_amended_ranked_order.2.2.2.2.1 (-2) (-100) (by decide) (by decide),
   c8_amended_ranked_order.2.2.2.2.2 2 3 (by decide) (by decide)⟩

/-- Characters produced by `natDigitsAux` beyond the accumulator are digit
characters. -/
lemma mem_natDigitsAux (fuel : Nat) : ∀ (n : Nat) (acc : Str) (c : Char),
    c ∈ natDigitsAux fuel n acc → c ∈ acc ∨ ∃ d, d < 10 ∧ c = digitChar d := by
  induction fuel with
  | zero => intro n acc c hc; exact Or.inl hc
  | succ f ih =>
    intro n acc c hc
    unfold natDigitsAux at hc
    by_cases h : n < 10
    · rw [if_pos h] at hc
      rcases List.mem_cons.1 hc with rfl | h2
      · exact Or.inr ⟨n, h, rfl⟩
      · exact Or.inl h2
    · rw [if_neg h] at hc
      rcases ih _ _ _ hc with h2 | h2
      · rcases List.mem_cons.1 h2 with rfl | h3
        · exact Or.inr ⟨n % 10, Nat.mod_lt _ (by omega), rfl⟩
        · exact Or.inl h3
      · exact Or.inr h2

/-- Characters of `natStr` are digit characters. -/
lemma mem_natStr (n : Nat) (c : Char) (hc : c ∈ natStr n) :
    ∃ d, d < 10 ∧ c = digitChar d := by
  rcases mem_natDigitsAux (n + 1) n [] c hc with h | h
  · cases h
  · exact h

/-- Characters of `pad2` are digit characters. -/
lemma mem_pad2 (n : Nat) (c : Char) (hc : c ∈ pad2 n) :
    ∃ d, d < 10 ∧ c = digitChar d := by
  unfold pad2 at hc
  by_cases h : n < 10
  · rw [if_pos h] at hc
    rcases List.mem_cons.1 hc with rfl | h2
    · exact ⟨0, by omega, rfl⟩
    · exact mem_natStr n c h2
  · rw [if_neg h] at hc
    exact mem_natStr n c hc

/-- A digit character is neither a dot nor a plus sign. -/
lemma digitChar_not_symbol (d : Nat) (h : d < 10) :
    digitChar d ≠ '.' ∧ digitChar d ≠ '+' := by
  interval_cases d <;> exact ⟨by decide, by decide⟩

/-- `pad2 n` has exactly two characters when `n < 100`. -/
lemma pad2_length (n : Nat) (h : n < 100) : (pad2 n).length = 2 := by
  by_cases h1 : n < 10
  · simp [pad2, h1, natStr, natDigitsAux]
  · rw [pad2, if_neg h1]
    obtain ⟨f, rfl⟩ : ∃ f, n = f + 1 := ⟨n - 1, by omega⟩
    have h3 : (f + 1) / 10 < 10 := by omega
    simp [natStr, natDigitsAux, h1, h3]

/-- The perspective flip the spec describes: the engine reports centipawn
scores from White's point of view, so the value is negated when Black is to
move. -/
def flipToMover (turn : Char) (v : Int) : Int := if turn = 'w' then v else -v

/-- The centipawn display format in the spec's words: the flipped value
divided by 100, rendered with two decimal places and a plus sign when
positive. -/
def specCpText (flipped : Int) : Str :=
  (if 0 < flipped then ['+'] else []) ++ fixed2 flipped

/-- C9: for every accepted centipawn progress line the stored evaluation is
the engine score flipped to the side to move, its display string is the
flipped value over 100 — with exactly two characters after the (unique)
decimal dot — and the string carries a `+` prefix exactly when the flipped
value is positive. -/
theorem c9_cp_display :
    (∀ (R : Rules) (fen : Str) (st : AggState) (r : RawLine) (mv : MoveRes),
      r.isMate = false →
      st.currentDepth ≤ r.depth →
      R.move fen (uciIntent (r.pv.headD [])) = some mv →
      ∃ li, getLine r.multipv (applyParsedLine R fen st r).analysisLines = some li ∧
        li.evalD = .cp (flipToMover (R.turnOf fen) r.score) ∧
        renderEval li.evalD = specCpText (flipToMover (R.turnOf fen) r.score)) ∧
    (∀ v : Int, ∃ pre, specCpText v = pre ++ '.' :: pad2 (v.natAbs % 100) ∧
      (pad2 (v.natAbs % 100)).length = 2 ∧ '.' ∉ pre) ∧
    (∀ v : Int, 0 < v ↔ '+' ∈ specCpText v) := by
  refine ⟨?_, ?_, ?_⟩
  · intro R fen st r mv hm hd hmv
    refine ⟨storedLine R fen r mv, ?_, ?_, ?_⟩
    · rw [analysisLines_applyParsedLine_legal R fen st r mv hd hmv, getLine_setLine]
    · simp [storedLine, hm, flipToMover]
    · simp only [storedLine, hm, Bool.false_eq_true, if_false]
      rfl
  · intro v
    refine ⟨(if 0 < v then ['+'] else []) ++
        ((if v < 0 then ['-'] else []) ++ natStr (v.natAbs / 100)), ?_, ?_, ?_⟩
    · simp [specCpText, fixed2, List.append_assoc]
    · exact pad2_length _ (Nat.mod_lt _ (by omega))
    · intro hdot
      rcases List.mem_append.1 hdot with h | h
      · by_cases h0 : 0 < v
        · rw [if_pos h0] at h
          simp at h
        · rw [if_neg h0] at h
          cases h
      · rcases List.mem_append.1 h with h2 | h2
        · by_cases hneg : v < 0
          · rw [if_pos hneg] at h2
            simp at h2
          · rw [if_neg hneg] at h2
            cases h2
        · obtain ⟨d, hd10, hEq⟩ := mem_natStr _ _ h2
          exact (digitChar_not_symbol d hd10).1 hEq.symm
  · intro v
    constructor
    · intro h0
      simp [specCpText, if_pos h0]
    · intro hmem
      by_contra h0
      rw [specCpText, if_neg h0, List.nil_append] at hmem
      unfold fixed2 at hmem
      rcases List.mem_append.1 hmem with h | h
      · rcases List.mem_append.1 h with h2 | h2
        · by_cases hneg : v < 0
          · rw [if_pos hneg] at h2
            simp at h2
          · rw [if_neg hneg] at h2
            simp at h2
        · obtain ⟨d, hd10, hEq⟩ := mem_natStr _ _ h2
          exact (digitChar_not_symbol d hd10).2 hEq.symm
      · rcases List.mem_cons.1 h with h3 | h3
        · exact absurd h3 (by decide)
        · obtain ⟨d, hd10, hEq⟩ := mem_pad2 _ _ h3
          exact (digitChar_not_symbol d hd10).2 hEq.symm

/-- Concrete rules engine with Black to move, used by the C9 witness. -/
def bRules : Rules :=
  { move := fun _ _ => some { san := "e5".data, newFen := "b2".data }, turnOf := fun _ => 'b' }

/-- The scenario line of the spec: Black to move, `score cp -35`. -/
def bLine : RawLine :=
  { depth := 12, multipv := 1, isMate := false, score := -35, pv := ["e7e5".data] }

theorem c9_cp_display_witness :
    (∃ li, getLine bLine.multipv
          (applyParsedLine bRules "f0".data ⟨[], 0⟩ bLine).analysisLines = some li ∧
        li.evalD = .cp (flipToMover (bRules.turnOf "f0".data) bLine.score) ∧
        renderEval li.evalD = specCpText (flipToMover (bRules.turnOf "f0".data) bLine.score)) ∧
    specCpText (flipToMover 'b' (-35)) = "+0.35".data :=
  ⟨c9_cp_display.1 bRules "f0".data ⟨[], 0⟩ bLine _ rfl (by decide) rfl, by decide⟩

/-- A command posted to the engine worker (`stockfish.postMessage`). -/
inductive Cmd where
  | stop
  | setPos (fen : Str)
  | goDepth (n : Nat)
deriving DecidableEq

/-- What the debounce timer sends when it fires (app.js lines 294-299):
`stop`, `position fen <game.fen()>` — the game position *at fire time* — and
`go depth 18` (the configured default depth). -/
def fireCmds (fen : Str) : List Cmd := [.stop, .setPos fen, .goDepth 18]

/-- The application state the analysis scheduler touches: the game position,
the aggregator state (`analysisLines`/`currentDepth`) and the fire time of
the pending debounce timer (`analysisTimeout`), if one is set.  The board
widget and the DOM mirror this state and carry nothing of their own. -/
structure AppState where
  gameFen : Str
  agg : AggState
  pending : Option Nat
deriving DecidableEq

/-- `analyzePosition` (app.js lines 284-305) called at time `now`, after the
game object has already been mutated: it synchronously clears
`analysisLines` and `currentDepth`, cancels any pending debounce timer and
schedules a new one 100 ms out.  No engine command is sent yet. -/
def analyzePosition (now : Nat) (st : AppState) : AppState :=
  { st with agg := ⟨[], 0⟩, pending := some (now + 100) }

/-- One position-changed event `(t, f)` (a move, undo, new game or FEN load
at time `t` producing position `f`): any timer due by `t` fires first —
sending the commands for the position current at fire time — then the game
becomes `f` and `analyzePosition` runs. -/
def stepPosEvent : AppState × List Cmd → Nat × Str → AppState × List Cmd
  | (st, out), (t, f) =>
    let fired : AppState × List Cmd :=
      match st.pending with
      | some ft => if ft ≤ t then ({ st with pending := none }, out ++ fireCmds st.gameFen)
                   else (st, out)
      | none => (st, out)
    (analyzePosition t { fired.1 with gameFen := f }, fired.2)

/-- A burst of position-changed events processed in order. -/
def runPosEvents (st : AppState) (evts : List (Nat × Str)) : AppState × List Cmd :=
  evts.foldl stepPosEvent (st, [])

/-- After the last event enough time passes for any pending timer to fire. -/
def flushTimer : AppState × List Cmd → List Cmd
  | (st, out) =>
    match st.pending with
    | some _ => out ++ fireCmds st.gameFen
    | none => out

/-- Every event of the list comes at or after time `tp` and strictly less
than 100 ms after it, and so on down the list (the "each event arrives less
than the debounce delay after the previous one" premise). -/
def burstFrom (tp : Nat) : List (Nat × Str) → Bool
  | [] => true
  | (t, _) :: rest => (decide (tp ≤ t) && decide (t < tp + 100)) && burstFrom t rest

/-- While the burst condition holds, the timer scheduled by the previous
event never fires before the next event, so the commands are emitted only by
the final flush, for the final position. -/
lemma runPosEvents_burst (evts : List (Nat × Str)) :
    ∀ (tp : Nat) (fp : Str) (ag : AggState) (out : List Cmd),
      burstFrom tp evts = true →
      (evts.foldl stepPosEvent (⟨fp, ag, some (tp + 100)⟩, out)) =
        (⟨((evts.map Prod.snd).getLastD fp), ⟨[], 0⟩,
            some (((evts.map Prod.fst).getLastD tp) + 100)⟩, out) ∨
      evts = [] := by
  induction evts with
  | nil => intro tp fp ag out _; exact Or.inr rfl
  | cons e rest ih =>
    intro tp fp ag out hb
    obtain ⟨t, f⟩ := e
    simp only [burstFrom, Bool.and_eq_true, decide_eq_true_eq] at hb
    obtain ⟨⟨h1, h2⟩, hb2⟩ := hb
    refine Or.inl ?_
    have hstep : stepPosEvent (⟨fp, ag, some (tp + 100)⟩, out) (t, f) =
        (⟨f, ⟨[], 0⟩, some (t + 100)⟩, out) := by
      simp only [stepPosEvent]
      rw [if_neg (by omega)]
      rfl
    rw [List.foldl_cons, hstep, List.map_cons, List.map_cons, List.getLastD_cons,
      List.getLastD_cons]
    rcases ih t f ⟨[], 0⟩ out hb2 with h | h
    · exact h
    · subst h
      simp

/-- C4: for every burst of position-changed events each arriving less than
100 ms after the previous one, starting with no timer pending, exactly one
engine request is issued — the sequence `stop`, `position fen <last
position>`, `go depth 18` — and none for the earlier positions. -/
theorem c4_debounce_single_analyze (st : AppState) (t1 : Nat) (f1 : Str)
    (rest : List (Nat × Str)) (hp : st.pending = none)
    (hb : burstFrom t1 rest = true) :
    flushTimer (runPosEvents st ((t1, f1) :: rest)) =
      fireCmds ((rest.map Prod.snd).getLastD f1) := by
  have hstep : stepPosEvent (st, []) (t1, f1) =
      (⟨f1, ⟨[], 0⟩, some (t1 + 100)⟩, []) := by
    simp only [stepPosEvent, hp]
    rfl
  unfold runPosEvents
  rw [List.foldl_cons, hstep]
  rcases runPosEvents_burst rest t1 f1 ⟨[], 0⟩ [] hb with h | h
  · rw [h]
    rfl
  · subst h
    rfl

theorem c4_debounce_single_analyze_witness :
    flushTimer (runPosEvents ⟨"fA".data, ⟨[], 0⟩, none⟩
        [(0, "fA".data), (50, "fB".data), (90, "fC".data)]) =
      fireCmds "fC".data :=
  c4_debounce_single_analyze ⟨"fA".data, ⟨[], 0⟩, none⟩ 0 "fA".data
    [(50, "fB".data), (90, "fC".data)] rfl (by decide)

/-- `playAnalysisMove` (app.js lines 465-482) at time `now`: parse the UCI
string into a move intent and attempt it on the live game; when the rules
engine rejects it, return with no state change and no command; on success
update the position and run `analyzePosition`.  (`clearPreview` only resets
the transient hover-preview overlay, display-only DOM state outside the
model.) -/
def playAnalysisMove (R : Rules) (now : Nat) (st : AppState) (uci : Str) :
    AppState × List Cmd :=
  match R.move st.gameFen (uciIntent uci) with
  | none => (st, [])
  | some mv => (analyzePosition now { st with gameFen := mv.newFen }, [])

/-- C10: clicking a candidate whose UCI string is not a legal move in the
current position changes nothing — game position, aggregator state and
pending request are untouched and no engine command or new analysis request
is issued. -/
theorem c10_illegal_click_noop (R : Rules) (now : Nat) (st : AppState) (uci : Str)
    (h : R.move st.gameFen (uciIntent uci) = none) :
    playAnalysisMove R now st uci = (st, []) := by
  unfold playAnalysisMove
  rw [h]

theorem c10_illegal_click_noop_witness :
    playAnalysisMove nRules 7 ⟨"fA".data, ⟨[], 4⟩, some 33⟩ "e2e5".data =
      (⟨"fA".data, ⟨[], 4⟩, some 33⟩, []) :=
  c10_illegal_click_noop nRules 7 ⟨"fA".data, ⟨[], 4⟩, some 33⟩ "e2e5".data rfl

/-- The position before the stale line's search started (the initial
position) and the position of the newer analyze request (after 1. a3 a6).
The pv move `e2e4` of the stale line is legal in both. -/
def newFen : Str := "rnbqkbnr/1ppppppp/p7/8/8/P7/1PPPPPPP/RNBQKBNR w KQkq - 0 2".data

/-- A rules engine that agrees with real chess on the only probe the C1
counterexample makes: `e2e4` is a legal move in `newFen`. -/
def cexRules : Rules :=
  { move := fun fen i =>
      if fen = newFen ∧ i = uciIntent "e2e4".data then
        some { san := "e4".data, newFen := "x".data }
      else none,
    turnOf := fun _ => 'w' }

/-- A progress line the engine streamed for the *previous* position (its pv
starts with the old position's reply `e2e4`), arriving after `analyzePosition`
already reset the aggregator for `newFen`. -/
def staleLine : Str := "info depth 15 multipv 1 score cp 30 pv e2e4 e7e5".data

/-- C1 counterexample: the code has no generation tag, so processing this
in-flight line of the superseded position is *not* a no-op on the freshly
reset state — the line passes the legality replay (`e2e4` is also legal in
the new position) and is attributed to the new position's `linesByRank`. -/
theorem c1_counterexample :
    (parseAnalysisLine cexRules newFen ⟨[], 0⟩ staleLine).analysisLines ≠ [] := by
  decide

/-- C1 as amended: after the reset that accompanies a new analyze request,
a late line of the previous position is discarded only by the two local
checks — unparseable fields, or a first pv move that is illegal in the *new*
position (which leaves `linesByRank` empty); a stale line whose first pv
move happens to be legal in the new position is accepted and attributed to
it. -/
theorem c1_amended_stale_lines :
    (∀ (R : Rules) (fen : Str) (line : Str) (r : RawLine),
      parseInfoTokens line = some r →
      R.move fen (uciIntent (r.pv.headD [])) = none →
      (parseAnalysisLine R fen ⟨[], 0⟩ line).analysisLines = []) ∧
    (∀ (R : Rules) (fen : Str) (r : RawLine) (mv : MoveRes),
      R.move fen (uciIntent (r.pv.headD [])) = some mv →
      getLine r.multipv (applyParsedLine R fen ⟨[], 0⟩ r).analysisLines =
        some (storedLine R fen r mv)) := by
  constructor
  · intro R fen line r hp hm
    unfold parseAnalysisLine
    rw [hp]
    exact analysisLines_applyParsedLine_illegal R fen ⟨[], 0⟩ r hm
  · intro R fen r mv hm
    rw [analysisLines_applyParsedLine_legal R fen ⟨[], 0⟩ r mv (Nat.zero_le _) hm,
      getLine_setLine]

/-- The parse of `staleLine`, used to instantiate the amended theorem. -/
def staleRaw : RawLine :=
  { depth := 15, multipv := 1, isMate := false, score := 30,
    pv := ["e2e4".data, "e7e5".data] }

theorem c1_amended_stale_lines_witness :
    ((parseAnalysisLine nRules newFen ⟨[], 0⟩ staleLine).analysisLines = []) ∧
    (getLine staleRaw.multipv
        (applyParsedLine cexRules newFen ⟨[], 0⟩ staleRaw).analysisLines =
      some (storedLine cexRules newFen staleRaw
        { san := "e4".data, newFen := "x".data })) :=
  ⟨c1_amended_stale_lines.1 nRules newFen staleLine staleRaw (by decide) rfl,
   c1_amended_stale_lines.2 cexRules newFen staleRaw
     { san := "e4".data, newFen := "x".data } (by decide)⟩

/-- JS whitespace (`\s`) as far as a reply line can contain it: the reply is
split on `'\n'` first, so a line holds spaces, tabs and carriage returns. -/
def isWsCh (c : Char) : Bool := c == ' ' || c == '\t' || c == '\r'

/-- JS `String.prototype.trim` on a single line. -/
def trimWs (s : Str) : Str :=
  ((s.dropWhile isWsCh).reverse.dropWhile isWsCh).reverse

/-- Greedy-first alternatives for one optional character of a class
(regex `X?`): consume when possible, also try the empty match.  Each
alternative is (consumed characters, rest). -/
def optCharAlts (p : Char → Bool) (s : Str) : List (Str × Str) :=
  match s with
  | c :: cs => if p c then [([c], cs), ([], c :: cs)] else [([], c :: cs)]
  | [] => [([], [])]

/-- One required character of a class (regex `[..]`). -/
def oneCharAlts (p : Char → Bool) (s : Str) : List (Str × Str) :=
  match s with
  | c :: cs => if p c then [([c], cs)] else []
  | [] => []

/-- Regex concatenation: all ways through both parts, earlier alternatives of
the left part varying slowest — the regex engine's backtracking order. -/
def seqAlts (f g : Str → List (Str × Str)) (s : Str) : List (Str × Str) :=
  (f s).flatMap (fun a => (g a.2).map (fun b => (a.1 ++ b.1, b.2)))

def isPieceCh (c : Char) : Bool := c == 'K' || c == 'Q' || c == 'R' || c == 'B' || c == 'N'

def isFileCh (c : Char) : Bool := decide ('a' ≤ c) && decide (c ≤ 'h')

def isRankCh (c : Char) : Bool := decide ('1' ≤ c) && decide (c ≤ '8')

/-- The optional promotion suffix `(?:=[QRBN])?`. -/
def promoAlts (s : Str) : List (Str × Str) :=
  match s with
  | '=' :: c :: cs =>
    if isPieceCh c then [(['=', c], cs), ([], '=' :: c :: cs)] else [([], '=' :: c :: cs)]
  | _ => [([], s)]

/-- The move-notation capture group of the reply regex (app.js line 801):
`[KQRBN]?[a-h]?[1-8]?x?[a-h][1-8](?:=[QRBN])?[+#]?`, every alternative in
backtracking order with its captured span. -/
def sanAlts : Str → List (Str × Str) :=
  seqAlts (optCharAlts isPieceCh)
    (seqAlts (optCharAlts isFileCh)
      (seqAlts (optCharAlts isRankCh)
        (seqAlts (optCharAlts (fun c => c == 'x'))
          (seqAlts (oneCharAlts isFileCh)
            (seqAlts (oneCharAlts isRankCh)
              (seqAlts promoAlts (optCharAlts (fun c => c == '+' || c == '#'))))))))

/-- `\*?\*?` — the rests after zero, one or two leading asterisks, greedy
first. -/
def stars2Rests (s : Str) : List Str :=
  (seqAlts (optCharAlts (fun c => c == '*')) (optCharAlts (fun c => c == '*')) s).map Prod.snd

/-- `(\d+\.\s*)?` — the optional move-number prefix.  Inside the group the
greedy `\d+` must be followed by the literal dot (backtracking over the
digits cannot help, the blocked character is never a dot), so the group
matches deterministically; the alternatives are taking it and skipping it. -/
def numDotRests (s : Str) : List Str :=
  match readNat s with
  | some (_, rest) =>
    match rest with
    | '.' :: r2 => [r2.dropWhile isWsCh, s]
    | _ => [s]
  | none => [s]

/-- `[:\s]+(.+)` — the delimiter run and the free-text capture: the greedy
run must leave at least one character for `.+`; when it reaches the end of
the line the engine backs off one delimiter character, which `.` then
matches. -/
def colonWsTail (s : Str) : Option Str :=
  let isCW : Char → Bool := fun c => c == ':' || isWsCh c
  match s.takeWhile isCW, s.dropWhile isCW with
  | [], _ => none
  | run, [] => if 2 ≤ run.length then some [run.getLastD ' '] else none
  | _, rest => some rest

/-- One reply line against the full anchored regex of `parseExplanations`
(app.js line 801): `^\*?\*?(\d+\.\s*)?(SAN)\*?\*?[:\s]+(.+)`; the result is
(captured move notation, captured explanation), from the first alternative
that succeeds in backtracking order — exactly the pair JS `match` yields. -/
def matchExplLine (line : Str) : Option (Str × Str) :=
  (stars2Rests line).findSome? (fun s1 =>
    (numDotRests s1).findSome? (fun s2 =>
      (sanAlts s2).findSome? (fun p =>
        (stars2Rests p.2).findSome? (fun s3 =>
          (colonWsTail s3).map (fun expl => (p.1, expl))))))

/-- JS object lookup over a list of assignments in program order: the last
assignment to the key wins. -/
def objGet (l : List (Str × Str)) (k : Str) : Option Str :=
  ((l.filter (fun p => decide (p.1 = k))).getLast?).map Prod.snd

/-- `parseExplanations` (app.js lines 795-810): each line of the reply is
matched against the regex; matches assign `explanations[move] =
explanation.trim()` in line order. -/
def parseExplanations (text : Str) : List (Str × Str) :=
  (splitNl text).foldl (fun acc line =>
    match matchExplLine line with
    | some p => acc ++ [(p.1, trimWs p.2)]
    | none => acc) []

/-- The reply outcome `fetchExplanations` observes: the catch path (network,
auth or non-2xx status) or the reply text. -/
inductive FetchOutcome where
  | fail
  | ok (text : Str)

/-- The inputs of one `fetchExplanations` run: the position and its side to
move, the accumulated `currentAnalysis`, and the cache contents — a partial
map from cache key to stored explanation; `none` covers a miss, a missing
cache client and a cache error alike (app.js lines 37-54). -/
structure ExplainInput where
  fen : Str
  turn : Char
  currentAnalysis : List LineInfo
  cache : Str → Option Str

/-- `currentAnalysis.slice(0, 4)` (app.js line 674). -/
def movesToExplain (inp : ExplainInput) : List LineInfo := inp.currentAnalysis.take 4

/-- `getExplanationFromCache(fen, m.move)` (app.js line 687). -/
def cacheProbe (inp : ExplainInput) (m : LineInfo) : Option Str :=
  inp.cache (getCacheKey inp.fen m.move)

/-- JS truthiness of the probe (`if (cached)`, app.js line 688): an empty
cached string is falsy and counts as a miss. -/
def cacheHit (inp : ExplainInput) (m : LineInfo) : Bool :=
  match cacheProbe inp m with
  | some t => !t.isEmpty
  | none => false

/-- The `cachedExplanations` assignments of the probe loop (app.js 677-700),
in loop order. -/
def cachedList (inp : ExplainInput) : List (Str × Str) :=
  (movesToExplain inp).filterMap (fun m =>
    match cacheProbe inp m with
    | some t => if t.isEmpty then none else some (m.move, t)
    | none => none)

/-- The `uncachedMoves` list (app.js line 695), in loop order. -/
def uncachedMoves (inp : ExplainInput) : List LineInfo :=
  (movesToExplain inp).filter (fun m => !(cacheHit inp m))

def noExplText : Str := "No explanation available".data

def errExplText : Str := "Error fetching explanation".data

def genText : Str := "Generating explanation...".data

/-- The text a candidate's panel element shows right after the probe loop:
its cached explanation on a hit, the `Generating explanation...` placeholder
otherwise (app.js lines 689-698). -/
def probeDisplay (inp : ExplainInput) (m : LineInfo) : Str :=
  match cacheProbe inp m with
  | some t => if t.isEmpty then genText else t
  | none => genText

/-- The `${m.move} (eval: ${m.eval})` list joined with `, `
(app.js line 710). -/
def movesStr (ms : List LineInfo) : Str :=
  List.intercalate ", ".data
    (ms.map (fun m => m.move ++ " (eval: ".data ++ renderEval m.evalD ++ [')']))

/-- The single batched prompt (app.js lines 712-729), verbatim up to the
interpolated position, side to move and uncached-move list. -/
def promptText (fen : Str) (turn : Char) (uncached : List LineInfo) : Str :=
  "You are a chess coach. Analyze this position and explain each candidate move concisely.\n\nPosition (FEN): ".data
    ++ fen
    ++ ['\n'] ++ (if turn = 'w' then "White".data else "Black".data)
    ++ " to move.\n\nTop engine moves: ".data
    ++ movesStr uncached
    ++ "\n\nFor each move, give a 1-2 sentence explanation of the strategic or tactical idea. Focus on:\n- What the move accomplishes\n- Any threats created or prevented\n- Positional considerations\n\nFormat your response as:\nMOVE: explanation\nMOVE: explanation\n...\n\nBe concise and insightful, like a strong club player explaining to an improving student.".data

/-- What one `fetchExplanations` run produced: the uncached-move list of each
request issued (at most one), the prompt of each, the per-candidate display
text in candidate order, and the fire-and-forget cache writes as (cache key,
explanation) pairs. -/
structure ExplainResult where
  requests : List (List LineInfo)
  prompts : List Str
  display : List (Str × Str)
  cacheWrites : List (Str × Str)
deriving DecidableEq

/-- `fetchExplanations` (app.js lines 660-793).  The probe loop partitions
the top candidates by cache hit; with no uncached move the function returns
before any network call; otherwise one request goes out for exactly the
uncached moves.  On reply, `allExplanations = {...cachedExplanations,
...newExplanations}` — reply entries override cached ones — and every
candidate's panel shows its entry or `No explanation available` (an empty
parsed explanation is falsy and falls back too); non-empty new entries are
written back to the cache.  On failure, panels of moves without a
`cachedExplanations` entry show the error text, the others keep their probe
text. -/
def fetchExplanations (inp : ExplainInput) (outcome : FetchOutcome) : ExplainResult :=
  let ms := movesToExplain inp
  let cached := cachedList inp
  let uncached := uncachedMoves inp
  if uncached.isEmpty then
    { requests := [], prompts := [],
      display := ms.map (fun m => (m.move, probeDisplay inp m)), cacheWrites := [] }
  else
    match outcome with
    | .fail =>
      { requests := [uncached],
        prompts := [promptText inp.fen inp.turn uncached],
        display := ms.map (fun m => (m.move,
          if (objGet cached m.move).isSome then probeDisplay inp m else errExplText)),
        cacheWrites := [] }
    | .ok text =>
      let newExp := parseExplanations text
      { requests := [uncached],
        prompts := [promptText inp.fen inp.turn uncached],
        display := ms.map (fun m => (m.move,
          match objGet (cached ++ newExp) m.move with
          | some t => if t.isEmpty then noExplText else t
          | none => noExplText)),
        cacheWrites := uncached.filterMap (fun m =>
          match objGet newExp m.move with
          | some t => if t.isEmpty then none else some (getCacheKey inp.fen m.move, t)
          | none => none) }

/-- A probe hit of a listed candidate lands in `cachedExplanations`. -/
lemma mem_cachedList (inp : ExplainInput) (m : LineInfo) (t : Str)
    (hm : m ∈ movesToExplain inp) (hp : cacheProbe inp m = some t)
    (ht : t.isEmpty = false) : (m.move, t) ∈ cachedList inp := by
  unfold cachedList
  refine List.mem_filterMap.2 ⟨m, hm, ?_⟩
  rw [hp]
  simp [ht]

/-- Values stored in `cachedExplanations` are non-empty (JS-truthy). -/
lemma cachedList_val_ne_empty (inp : ExplainInput) {k t : Str}
    (h : (k, t) ∈ cachedList inp) : t.isEmpty = false := by
  unfold cachedList at h
  obtain ⟨m, -, he⟩ := List.mem_filterMap.1 h
  cases hp : cacheProbe inp m with
  | none => simp [hp] at he
  | some t2 =>
    rw [hp] at he
    by_cases h2 : t2.isEmpty
    · simp [h2] at he
    · simp only [h2, Bool.false_eq_true, if_false, Option.some.injEq, Prod.mk.injEq] at he
      obtain ⟨-, rfl⟩ := he
      simpa using h2

/-- A key present in the assignment list has a lookup result. -/
lemma objGet_isSome_of_mem {l : List (Str × Str)} {k t : Str} (h : (k, t) ∈ l) :
    (objGet l k).isSome = true := by
  unfold objGet
  have hmem : (k, t) ∈ l.filter (fun p => decide (p.1 = k)) :=
    List.mem_filter.2 ⟨h, by simp⟩
  cases hl : (l.filter (fun p => decide (p.1 = k))).getLast? with
  | none =>
    exact absurd (List.getLast?_eq_none_iff.1 hl ▸ hmem) (List.not_mem_nil _)
  | some p => simp

/-- A successful lookup returns a value assigned to that key. -/
lemma objGet_mem {l : List (Str × Str)} {k t : Str} (h : objGet l k = some t) :
    (k, t) ∈ l := by
  unfold objGet at h
  cases hl : (l.filter (fun p => decide (p.1 = k))).getLast? with
  | none => rw [hl] at h; cases h
  | some p =>
    rw [hl] at h
    have hpt : p.2 = t := Option.some.inj h
    have hp1 : p ∈ l.filter (fun p => decide (p.1 = k)) := by
      obtain ⟨hne, heq⟩ := List.mem_getLast?_eq_getLast (l := l.filter _) (x := p) (by rw [hl]; rfl)
      rw [heq]
      exact List.getLast_mem hne
    obtain ⟨hpl, hpk⟩ := List.mem_filter.1 hp1
    have hk : p.1 = k := by simpa using hpk
    have : p = (k, t) := Prod.ext hk hpt
    exact this ▸ hpl

/-- Later assignment lists shadow earlier ones. -/
lemma objGet_append_right {a b : List (Str × Str)} {k t : Str}
    (h : objGet b k = some t) : objGet (a ++ b) k = some t := by
  unfold objGet at h ⊢
  rw [List.filter_append]
  have hb : b.filter (fun p => decide (p.1 = k)) ≠ [] := by
    intro hnil
    rw [hnil] at h
    cases h
  rw [List.getLast?_append_of_ne_nil _ hb]
  exact h

/-- A key absent from the later list falls through to the earlier one. -/
lemma objGet_append_left {a b : List (Str × Str)} {k : Str}
    (h : objGet b k = none) : objGet (a ++ b) k = objGet a k := by
  unfold objGet at h ⊢
  rw [List.filter_append]
  have hb : b.filter (fun p => decide (p.1 = k)) = [] := by
    cases hl : (b.filter (fun p => decide (p.1 = k))).getLast? with
    | none => exact List.getLast?_eq_none_iff.1 hl
    | some p => rw [hl] at h; cases h
  rw [hb, List.append_nil]

/-- C7: when the external request fails, the pipeline still completes with a
text for every top candidate — candidates with a cached explanation keep
showing it, and a candidate without one (its notation absent from
`cachedExplanations`) shows exactly the error text. -/
theorem c7_failure_keeps_cached (inp : ExplainInput) :
    ((fetchExplanations inp .fail).display.map Prod.fst =
      (movesToExplain inp).map (fun m => m.move)) ∧
    (∀ m ∈ movesToExplain inp, ∀ t : Str, cacheProbe inp m = some t → t.isEmpty = false →
      (m.move, t) ∈ (fetchExplanations inp .fail).display) ∧
    (∀ m ∈ movesToExplain inp, cacheHit inp m = false →
      objGet (cachedList inp) m.move = none →
      (m.move, errExplText) ∈ (fetchExplanations inp .fail).display) := by
  refine ⟨?_, ?_, ?_⟩
  · unfold fetchExplanations
    by_cases hu : (uncachedMoves inp).isEmpty
    · rw [if_pos hu]
      simp
    · rw [if_neg hu]
      simp
  · intro m hm t hp ht
    have hdisp : probeDisplay inp m = t := by
      unfold probeDisplay
      rw [hp]
      simp [ht]
    unfold fetchExplanations
    by_cases hu : (uncachedMoves inp).isEmpty
    · rw [if_pos hu]
      exact List.mem_map.2 ⟨m, hm, by rw [hdisp]⟩
    · rw [if_neg hu]
      have hsome : (objGet (cachedList inp) m.move).isSome = true :=
        objGet_isSome_of_mem (mem_cachedList inp m t hm hp ht)
      exact List.mem_map.2 ⟨m, hm, by rw [hsome, if_pos rfl, hdisp]⟩
  · intro m hm hhit hget
    have hmu : m ∈ uncachedMoves inp := List.mem_filter.2 ⟨hm, by rw [hhit]; rfl⟩
    unfold fetchExplanations
    by_cases hu : (uncachedMoves inp).isEmpty
    · exact absurd (List.isEmpty_iff.1 hu ▸ hmu) (List.not_mem_nil _)
    · rw [if_neg hu]
      refine List.mem_map.2 ⟨m, hm, ?_⟩
      rw [hget]
      rfl

/-- The cache used by the pipeline witnesses: only `e4` in position `wf` has
a stored explanation. -/
def wCache : Str → Option Str := fun k =>
  if k = getCacheKey "wf".data "e4".data then some "Opens center".data else none

def wLineE4 : LineInfo :=
  { move := "e4".data, uci := "e2e4".data, evalD := .cp 30, depth := 12, pv := [] }

def wLineD4 : LineInfo :=
  { move := "d4".data, uci := "d2d4".data, evalD := .cp 25, depth := 12, pv := [] }

/-- Candidates `e4` (cached) and `d4` (uncached) in position `wf`. -/
def wInp : ExplainInput :=
  { fen := "wf".data, turn := 'w', currentAnalysis := [wLineE4, wLineD4], cache := wCache }

theorem c7_failure_keeps_cached_witness :
    ((fetchExplanations wInp .fail).display.map Prod.fst =
      (movesToExplain wInp).map (fun m => m.move)) ∧
    ((wLineE4.move, "Opens center".data) ∈ (fetchExplanations wInp .fail).display) ∧
    ((wLineD4.move, errExplText) ∈ (fetchExplanations wInp .fail).display) :=
  ⟨(c7_failure_keeps_cached wInp).1,
   (c7_failure_keeps_cached wInp).2.1 wLineE4 (by decide) "Opens center".data
     (by decide) (by decide),
   (c7_failure_keeps_cached wInp).2.2 wLineD4 (by decide) (by decide) (by decide)⟩

/-- A reply that also names the already-cached move `e4`. -/
def cexReply : Str := "e4: Hacked\nd4: Controls the center".data

/-- C6 counterexample: the final per-move output does *not* always contain
the cached entries — `e4` is cached as `Opens center`, but the reply's `e4`
line overrides it (`allExplanations = {...cached, ...new}` lets reply
entries shadow cached ones, and the reply parser does not restrict matches
to uncached moves), so the output shows `Hacked` for `e4`. -/
theorem c6_counterexample :
    (fetchExplanations wInp (.ok cexReply)).display =
      [("e4".data, "Hacked".data), ("d4".data, "Controls the center".data)] := by
  decide

/-- C6 as amended: with every candidate cached the pipeline issues no
request and shows only cached text; otherwise it issues exactly one request
whose prompt lists exactly the uncached moves with their evaluations, and
the final output shows every non-empty newly parsed entry and the cached
entry of every move the parsed reply does not itself name (a reply line
naming a cached move overrides its cached text). -/
theorem c6_amended_batched_request :
    (∀ (inp : ExplainInput) (o : FetchOutcome),
      uncachedMoves inp = [] →
        (fetchExplanations inp o).requests = [] ∧
        (fetchExplanations inp o).prompts = [] ∧
        (fetchExplanations inp o).display =
          (movesToExplain inp).map (fun m => (m.move, probeDisplay inp m))) ∧
    (∀ (inp : ExplainInput) (text : Str),
      uncachedMoves inp ≠ [] →
        (fetchExplanations inp (.ok text)).requests = [uncachedMoves inp] ∧
        (fetchExplanations inp (.ok text)).prompts =
          [promptText inp.fen inp.turn (uncachedMoves inp)]) ∧
    (∀ (inp : ExplainInput) (text : Str) (m : LineInfo) (t : Str),
      uncachedMoves inp ≠ [] →
      m ∈ movesToExplain inp →
      objGet (cachedList inp) m.move = some t →
      objGet (parseExplanations text) m.move = none →
        (m.move, t) ∈ (fetchExplanations inp (.ok text)).display) ∧
    (∀ (inp : ExplainInput) (text : Str) (m : LineInfo) (t : Str),
      uncachedMoves inp ≠ [] →
      m ∈ movesToExplain inp →
      objGet (parseExplanations text) m.move = some t →
      t.isEmpty = false →
        (m.move, t) ∈ (fetchExplanations inp (.ok text)).display) := by
  refine ⟨?_, ?_, ?_, ?_⟩
  · intro inp o hu
    have hu2 : (uncachedMoves inp).isEmpty = true := by rw [hu]; rfl
    unfold fetchExplanations
    rw [if_pos hu2]
    exact ⟨rfl, rfl, rfl⟩
  · intro inp text hu
    have hu2 : ¬ (uncachedMoves inp).isEmpty = true := by
      simpa using hu
    unfold fetchExplanations
    rw [if_neg hu2]
    exact ⟨rfl, rfl⟩
  · intro inp text m t hu hm hc hnew
    have hu2 : ¬ (uncachedMoves inp).isEmpty = true := by simpa using hu
    have ht : t.isEmpty = false := cachedList_val_ne_empty inp (objGet_mem hc)
    have hall : objGet (cachedList inp ++ parseExplanations text) m.move = some t := by
      rw [objGet_append_left hnew]
      exact hc
    unfold fetchExplanations
    rw [if_neg hu2]
    refine List.mem_map.2 ⟨m, hm, ?_⟩
    rw [hall]
    simp [ht]
  · intro inp text m t hu hm hnew ht
    have hu2 : ¬ (uncachedMoves inp).isEmpty = true := by simpa using hu
    have hall : objGet (cachedList inp ++ parseExplanations text) m.move = some t :=
      objGet_append_right hnew
    unfold fetchExplanations
    rw [if_neg hu2]
    refine List.mem_map.2 ⟨m, hm, ?_⟩
    rw [hall]
    simp [ht]

/-- All-cached input for the witness: the single candidate `e4`, which the
cache covers. -/
def aInp : ExplainInput :=
  { fen := "wf".data, turn := 'w', currentAnalysis := [wLineE4], cache := wCache }

/-- A good-path reply naming only the uncached move `d4`. -/
def okReply : Str := "d4: Controls the center".data

theorem c6_amended_batched_request_witness :
    ((fetchExplanations aInp .fail).requests = [] ∧
      (fetchExplanations aInp .fail).prompts = [] ∧
      (fetchExplanations aInp .fail).display =
        (movesToExplain aInp).map (fun m => (m.move, probeDisplay aInp m))) ∧
    ((fetchExplanations wInp (.ok okReply)).requests = [uncachedMoves wInp] ∧
      (fetchExplanations wInp (.ok okReply)).prompts =
        [promptText wInp.fen wInp.turn (uncachedMoves wInp)]) ∧
    ((wLineE4.move, "Opens center".data) ∈
      (fetchExplanations wInp (.ok okReply)).display) ∧
    ((wLineD4.move, "Controls the center".data) ∈
      (fetchExplanations wInp (.ok okReply)).display) :=
  ⟨c6_amended_batched_request.1 aInp .fail (by decide),
   c6_amended_batched_request.2.1 wInp okReply (by decide),
   c6_amended_batched_request.2.2.1 wInp okReply wLineE4 "Opens center".data
     (by decide) (by decide) (by decide) (by decide),
   c6_amended_batched_request.2.2.2 wInp okReply wLineD4 "Controls the center".data
     (by decide) (by decide) (by decide) (by decide)⟩

end ChessPlayalong
